import Mathlib

/-!
Verification of the decision core of the image-culling pipeline.

The embedding models the decision logic of the repository:

* `src/culler.py` — `find_dups_to_remove` (survivor selection),
  the quality-gate threshold chain, the weighted-score sort and the
  final trim inside `gen_culled_list_fast`, and `image_faces_match`;
* `src/duplicate_detector.py` — `group_duplicates` (adjacency build and
  breadth-first component extraction);
* `src/utils.py` — `group_imgs_by_datetime` (temporal-burst grouping)
  and the image-extension filter;
* `src/scorer.py` — the glob patterns selecting which files get scored.

Python floats are modelled as rationals (`ℚ`); the numeric literals of
the source (0.1, 2.50, …) are exact decimal fractions, so every
comparison made by the code is reproduced exactly.  Python dicts keyed
by filename are modelled as association lists in insertion order; a
`KeyError` on lookup is modelled by `Option`.  File-system side effects
(copying images into audit folders, prints) do not affect the returned
lists and are not modelled.
-/

/-- The per-image score vector produced by `score_images` in
`src/scorer.py`: the seven fixed aesthetic categories. -/
structure Scores where
  overall : ℚ
  quality : ℚ
  composition : ℚ
  lighting : ℚ
  color : ℚ
  depthOfField : ℚ
  content : ℚ

/-- The weighted average used both in `find_dups_to_remove` and in the
sort key of `gen_culled_list_fast` (`src/culler.py` lines 297-307 and
640-647):
`Quality*0.1 + Composition*0.3 + Depth of Field*0.2 + Color*0.15 + Lighting*0.25`. -/
def weightedScore (s : Scores) : ℚ :=
  s.quality * 0.1 + s.composition * 0.3 + s.depthOfField * 0.2 +
    s.color * 0.15 + s.lighting * 0.25

/-- The inner loop of `find_dups_to_remove` (`src/culler.py` 636-654)
over one group `matching_images`, threading the running state
(`max_score`, `best_image`, `dups_to_remove`).  `best_image` starts as
the empty string and `max_score` as `0.0`; an image is looked up in the
`scored_images` dict (a failing lookup is Python's `KeyError`, modelled
as `none`); an image strictly exceeding the running maximum displaces
the previous best (which is appended to the discard list unless it is
the `""` sentinel), any other image is appended immediately. -/
def find_best_go (scored : List (String × Scores)) :
    List String → ℚ → String → List String → Option (ℚ × String × List String)
  | [], maxScore, best, acc => some (maxScore, best, acc)
  | img :: rest, maxScore, best, acc =>
    match scored.lookup img with
    | none => none
    | some s =>
      if maxScore < weightedScore s then
        find_best_go scored rest (weightedScore s) img
          (if best = "" then acc else acc ++ [best])
      else
        find_best_go scored rest maxScore best (acc ++ [img])

/-- The outer loop of `find_dups_to_remove`: one scan per duplicate
group, with the shared accumulator `dups_to_remove` and the per-group
re-initialisation `max_score = 0.0`, `best_image = ""`. -/
def find_dups_go (scored : List (String × Scores)) :
    List (List String) → List String → Option (List String)
  | [], acc => some acc
  | g :: gs, acc =>
    match find_best_go scored g 0 "" acc with
    | none => none
    | some r => find_dups_go scored gs r.2.2

/-- `find_dups_to_remove` (`src/culler.py` 615-656): every image except
the scan-selected best of each duplicate group.  `none` models the
`KeyError` raised when a group member is missing from `scored_images`. -/
def find_dups_to_remove (scored : List (String × Scores))
    (duplicates : List (List String)) : Option (List String) :=
  find_dups_go scored duplicates []

/-- The quality-gate `elif` chain of `gen_culled_list_fast`
(`src/culler.py` 267-293): the first failing threshold, with the
category name that the code reports, or `none` when the image passes
all six checks. -/
def quality_gate_reason (s : Scores) : Option String :=
  if s.overall < 2.50 then some "Overall"
  else if s.quality < 2.50 then some "Quality"
  else if s.composition < 2.75 then some "Composition"
  else if s.lighting < 2.50 then some "Lighting"
  else if s.depthOfField < 2.50 then some "Depth of Field"
  else if s.content < 2.60 then some "Content"
  else none

/-- An image survives the quality gate iff no check fires. -/
def passes_quality_gate (s : Scores) : Bool :=
  (quality_gate_reason s).isNone

/-- The sort order of `sorted(scored_images.items(), key = weighted
average)` (`src/culler.py` 297-307): ascending by `weightedScore`. -/
def wle (a b : String × Scores) : Prop :=
  weightedScore a.2 ≤ weightedScore b.2

instance : DecidableRel wle := fun a b =>
  inferInstanceAs (Decidable (weightedScore a.2 ≤ weightedScore b.2))

instance : IsTotal (String × Scores) wle :=
  ⟨fun a b => le_total (weightedScore a.2) (weightedScore b.2)⟩

instance : IsTrans (String × Scores) wle :=
  ⟨fun _ _ _ h h' => le_trans h h'⟩

/-- Python's `sorted` is a stable ascending sort; `List.insertionSort`
is one too. -/
def sort_by_weighted_score (imgs : List (String × Scores)) :
    List (String × Scores) :=
  List.insertionSort wle imgs

/-- The kept part of the final trim of `gen_culled_list_fast`
(`src/culler.py` 310-322): `num_images_to_cull = max(0, count -
cull_to)` images are skipped from the front of the ascending order
(truncated subtraction on `Nat` is exactly `max 0 (count - cull_to)`),
the rest are returned in ascending order. -/
def trim_to_target (imgs : List (String × Scores)) (cull_to : Nat) :
    List (String × Scores) :=
  (sort_by_weighted_score imgs).drop (imgs.length - cull_to)

/-- The images skipped by the final trim: the lowest `max(0, count -
cull_to)` in ascending order.  The source drops them silently (they are
appended to neither `culled` nor `culled_img_list`). -/
def trim_removed (imgs : List (String × Scores)) (cull_to : Nat) :
    List (String × Scores) :=
  (sort_by_weighted_score imgs).take (imgs.length - cull_to)

/-- The duplicate-removal loop of `gen_culled_list_fast`
(`src/culler.py` 257-264): `del scored_images[duplicate]` for each
entry of `duplicates_to_remove`, in order.  A `del` of a missing key
raises `KeyError`, modelled as `none`. -/
def del_scored : List (String × Scores) → List String → Option (List (String × Scores))
  | m, [] => some m
  | m, d :: ds =>
    if (m.lookup d).isSome then
      del_scored (m.eraseP (fun p => p.1 == d)) ds
    else none

/-- The decision core of `gen_culled_list_fast` (`src/culler.py`
192-350) as a function of the scored images, the duplicate groups and
`cull_to`.  It returns `(culled, trimmed, kept)` where `culled` is the
internal audit list of duplicate/gate discards, `trimmed` the images
silently dropped by the final trim, and `kept` the returned
`culled_img_list`; the Python function returns only `kept`.  `none`
models an uncaught exception: a `KeyError` in `find_dups_to_remove` or
the duplicate-removal loop, or the `ZeroDivisionError` raised by
`pct_culled = len(culled) / num_images` (line 335) when the directory
contained no scored image — that statement runs after `culled_img_list`
is built but before it is returned. -/
def gen_culled_list_fast (scored : List (String × Scores))
    (duplicates : List (List String)) (cull_to : Nat) :
    Option (List String × List String × List String) :=
  match find_dups_to_remove scored duplicates with
  | none => none
  | some dups =>
    match del_scored scored dups with
    | none => none
    | some afterDups =>
      let gateFail := afterDups.filter (fun p => (quality_gate_reason p.2).isSome)
      let afterGate := afterDups.filter (fun p => (quality_gate_reason p.2).isNone)
      let culled := dups ++ gateFail.map Prod.fst
      let kept := (trim_to_target afterGate cull_to).map Prod.fst
      let trimmed := (trim_removed afterGate cull_to).map Prod.fst
      if scored.length = 0 then none
      else some (culled, trimmed, kept)

/-- `image_faces_match` (`src/culler.py` 523-546): every face encoding
of the first image must have at least one match among the second
image's encodings, with short-circuiting exactly as in the nested
loops.  The external `face_recognition.compare_faces` call is the
abstract pairwise predicate `cmp`. -/
def image_faces_match {α : Type} (cmp : α → α → Bool)
    (img1Encodings img2Encodings : List α) : Bool :=
  img1Encodings.all (fun enc1 => img2Encodings.any (fun enc2 => cmp enc1 enc2))

/-- The keys of the adjacency dict of `group_duplicates`
(`src/duplicate_detector.py` 77-81), in insertion order. -/
def adjKeys (adj : List (String × List String)) : List String :=
  adj.map Prod.fst

/-- One `adj[a].add(b)` step on the `defaultdict(set)`: the key `a` is
created on first touch (appended at the end, as Python dicts preserve
insertion order) and `b` is added to its neighbour set unless already
present.  Python's set iteration order is unspecified; the model keeps
insertion order, which none of the proved properties depend on. -/
def addNbr : List (String × List String) → String → String → List (String × List String)
  | [], a, b => [(a, [b])]
  | (k, ns) :: rest, a, b =>
    if k = a then (k, if b ∈ ns then ns else ns ++ [b]) :: rest
    else (k, ns) :: addNbr rest a b

/-- The adjacency-building loop of `group_duplicates`: for each
duplicate pair `(a, b)`, `adj[a].add(b); adj[b].add(a)`. -/
def buildAdj (pairs : List (String × String)) : List (String × List String) :=
  pairs.foldl (fun adj p => addNbr (addNbr adj p.1 p.2) p.2 p.1) []

/-- `adj[curr]`: the neighbour list of a node (empty when absent;
inside `group_duplicates` every dequeued node is a key). -/
def nbrsOf (adj : List (String × List String)) (x : String) : List String :=
  match adj.lookup x with
  | some ns => ns
  | none => []

/-- Total number of directed edges stored in the adjacency lists. -/
def adjSize (adj : List (String × List String)) : Nat :=
  (adj.map (fun p => p.2.length)).sum

/-- The `while queue:` breadth-first loop of `group_duplicates`
(`src/duplicate_detector.py` 88-96): pop `curr`; if unvisited, mark it
visited, append it to the group, and enqueue its not-yet-visited
neighbours.  The loop pops one element per iteration and every directed
edge is enqueued at most once (its source is visited only once), so the
number of iterations is at most `1 + adjSize adj` for the singleton
initial queue; the `fuel` parameter bounds the iterations and is always
called with at least that much, so the model never stops early. -/
def bfsAux (adj : List (String × List String)) :
    Nat → List String → List String → List String → List String × List String
  | 0, _, visited, group => (visited, group)
  | _ + 1, [], visited, group => (visited, group)
  | fuel + 1, curr :: queue, visited, group =>
    if curr ∈ visited then bfsAux adj fuel queue visited group
    else
      bfsAux adj fuel
        (queue ++ (nbrsOf adj curr).filter (fun n => decide (n ∉ visited ++ [curr])))
        (visited ++ [curr]) (group ++ [curr])

/-- The `for node in adj:` loop of `group_duplicates`: start a
breadth-first search from every not-yet-visited key and append the
resulting component as one group. -/
def group_dups_go (adj : List (String × List String)) :
    List String → List String → List (List String) → List String × List (List String)
  | [], visited, groups => (visited, groups)
  | k :: ks, visited, groups =>
    if k ∈ visited then group_dups_go adj ks visited groups
    else
      let r := bfsAux adj (adjSize adj + 2) [k] visited []
      group_dups_go adj ks r.1 (groups ++ [r.2])

/-- `group_duplicates` (`src/duplicate_detector.py` 65-101): build the
pair adjacency, extract connected components by breadth-first search,
and return the total member count together with the groups. -/
def group_duplicates (pairs : List (String × String)) : Nat × List (List String) :=
  let adj := buildAdj pairs
  let r := group_dups_go adj (adjKeys adj) [] []
  ((r.2.map List.length).sum, r.2)

/-- The sort order of `image_datetimes.sort(key=lambda x: x[1])`
(`src/utils.py` 190): ascending by capture time (seconds, as `ℚ`). -/
def timeLe (a b : String × ℚ) : Prop := a.2 ≤ b.2

instance : DecidableRel timeLe := fun a b =>
  inferInstanceAs (Decidable (a.2 ≤ b.2))

instance : IsTotal (String × ℚ) timeLe := ⟨fun a b => le_total a.2 b.2⟩

instance : IsTrans (String × ℚ) timeLe := ⟨fun _ _ _ h h' => le_trans h h'⟩

/-- The grouping walk of `group_imgs_by_datetime` (`src/utils.py`
193-210): `current_time` is the timestamp of the image that opened the
current group and is updated only when a new group starts; an image
joins the current group iff `abs(dt - current_time) <= 1.0`. -/
def burstWalk : List (String × ℚ) → ℚ → List String → List (List String)
  | [], _, currentGroup => [currentGroup]
  | (f, dt) :: rest, currentTime, currentGroup =>
    if |dt - currentTime| ≤ 1 then burstWalk rest currentTime (currentGroup ++ [f])
    else currentGroup :: burstWalk rest dt [f]

/-- `group_imgs_by_datetime` (`src/utils.py` 97-212) restricted to its
decision core: the images that survived EXIF extraction, as
`(filename, capture time in seconds)`, sorted ascending by time and
walked into burst groups.  An empty list returns `[]` (the
`if not image_datetimes` guard). -/
def group_imgs_by_datetime (imgs : List (String × ℚ)) : List (List String) :=
  match List.insertionSort timeLe imgs with
  | [] => []
  | first :: rest => burstWalk rest first.2 [first.1]

/-- Lower-casing of a character, as in Python's `str.lower` on ASCII
filenames. -/
def lower_char (c : Char) : Char :=
  if 'A' ≤ c ∧ c ≤ 'Z' then Char.ofNat (c.toNat + 32) else c

/-- `f.lower()` on a filename. -/
def str_lower (s : String) : String := ⟨s.data.map lower_char⟩

/-- `os.path.splitext(f)[1]` for ordinary filenames: the suffix from
the last dot on, or `""` when the name has no dot.  (Python also
special-cases names consisting only of leading dots, which no image
filename hits.) -/
def file_extension (s : String) : String :=
  if '.' ∈ s.data then ⟨'.' :: (s.data.reverse.takeWhile (fun c => c ≠ '.')).reverse⟩
  else ""

/-- The eight extensions accepted by `group_imgs_by_datetime`
(`src/utils.py` 110-120). -/
def image_extensions : List String :=
  [".jpg", ".jpeg", ".png", ".webp", ".tiff", ".tif", ".bmp", ".gif"]

/-- The file filter of `group_imgs_by_datetime` (`src/utils.py`
130-132): `os.path.splitext(f.lower())[1] in image_extensions`. -/
def grouper_accepts (f : String) : Bool :=
  image_extensions.contains (file_extension (str_lower f))

/-- Suffix test on strings (what a `*.ext` glob matches). -/
def ends_with (s suffixStr : String) : Bool :=
  decide (suffixStr.data.length ≤ s.data.length) &&
    decide (s.data.drop (s.data.length - suffixStr.data.length) = suffixStr.data)

/-- The file filter of `score_images` (`src/scorer.py` 34-39): the
union of the `*.jpg`, `*.png` and `*.webp` globs (case-sensitive, no
lower-casing). -/
def scorer_accepts (f : String) : Bool :=
  ends_with f ".jpg" || ends_with f ".png" || ends_with f ".webp"

/-- C9: the face-match predicate `image_faces_match` is not symmetric:
an image with zero face encodings vacuously matches every other image,
while a non-empty encoding list never matches an image with no
encodings — so `image_faces_match A B = true` with
`image_faces_match B A = false` whenever `A = []` and `B` is non-empty,
and the adjacency built from it in `find_people_duplicates` is
directed. -/
theorem image_faces_match_asymmetric :
    ∀ (α : Type) (cmp : α → α → Bool) (e : α) (encs : List α),
      image_faces_match cmp [] encs = true ∧
      image_faces_match cmp [e] [] = false := by
  intro α cmp e encs
  simp [image_faces_match]

/-- C5: on an empty image set the pipeline does not return an empty
kept list — it aborts: `scored_images` is empty, `find_dup_imgs` finds
no duplicate pairs, and after building `culled_img_list = []` the stats
line `pct_culled = len(culled) / num_images` divides by
`num_images = 0` and raises `ZeroDivisionError` (modelled as `none`),
for every `cull_to`. -/
theorem empty_input_division_error :
    ∀ cull_to : Nat, gen_culled_list_fast [] [] cull_to = none := by
  intro cull_to
  rfl

/-- C6: the quality gate keeps an image iff all six fixed thresholds
hold (`Overall ≥ 2.50`, `Quality ≥ 2.50`, `Composition ≥ 2.75`,
`Lighting ≥ 2.50`, `Depth of Field ≥ 2.50`, `Content ≥ 2.60`), and the
first failing check in that priority order determines the reported
reason. -/
theorem quality_gate_spec : ∀ s : Scores,
    (passes_quality_gate s = true ↔
      (2.50 ≤ s.overall ∧ 2.50 ≤ s.quality ∧ 2.75 ≤ s.composition ∧
        2.50 ≤ s.lighting ∧ 2.50 ≤ s.depthOfField ∧ 2.60 ≤ s.content)) ∧
    (s.overall < 2.50 → quality_gate_reason s = some "Overall") ∧
    (2.50 ≤ s.overall → s.quality < 2.50 →
      quality_gate_reason s = some "Quality") ∧
    (2.50 ≤ s.overall → 2.50 ≤ s.quality → s.composition < 2.75 →
      quality_gate_reason s = some "Composition") ∧
    (2.50 ≤ s.overall → 2.50 ≤ s.quality → 2.75 ≤ s.composition →
      s.lighting < 2.50 → quality_gate_reason s = some "Lighting") ∧
    (2.50 ≤ s.overall → 2.50 ≤ s.quality → 2.75 ≤ s.composition →
      2.50 ≤ s.lighting → s.depthOfField < 2.50 →
      quality_gate_reason s = some "Depth of Field") ∧
    (2.50 ≤ s.overall → 2.50 ≤ s.quality → 2.75 ≤ s.composition →
      2.50 ≤ s.lighting → 2.50 ≤ s.depthOfField → s.content < 2.60 →
      quality_gate_reason s = some "Content") := by
  intro s
  refine ⟨?_, ?_, ?_, ?_, ?_, ?_, ?_⟩
  · unfold passes_quality_gate quality_gate_reason
    split_ifs with h1 h2 h3 h4 h5 h6
    · exact iff_of_false (by simp) (fun hc => absurd hc.1 (not_le.mpr h1))
    · exact iff_of_false (by simp) (fun hc => absurd hc.2.1 (not_le.mpr h2))
    · exact iff_of_false (by simp) (fun hc => absurd hc.2.2.1 (not_le.mpr h3))
    · exact iff_of_false (by simp) (fun hc => absurd hc.2.2.2.1 (not_le.mpr h4))
    · exact iff_of_false (by simp) (fun hc => absurd hc.2.2.2.2.1 (not_le.mpr h5))
    · exact iff_of_false (by simp) (fun hc => absurd hc.2.2.2.2.2 (not_le.mpr h6))
    · exact iff_of_true (by simp)
        ⟨not_lt.mp h1, not_lt.mp h2, not_lt.mp h3, not_lt.mp h4,
          not_lt.mp h5, not_lt.mp h6⟩
  · intro h1
    unfold quality_gate_reason
    rw [if_pos h1]
  · intro h1 h2
    unfold quality_gate_reason
    rw [if_neg (not_lt.mpr h1), if_pos h2]
  · intro h1 h2 h3
    unfold quality_gate_reason
    rw [if_neg (not_lt.mpr h1), if_neg (not_lt.mpr h2), if_pos h3]
  · intro h1 h2 h3 h4
    unfold quality_gate_reason
    rw [if_neg (not_lt.mpr h1), if_neg (not_lt.mpr h2),
      if_neg (not_lt.mpr h3), if_pos h4]
  · intro h1 h2 h3 h4 h5
    unfold quality_gate_reason
    rw [if_neg (not_lt.mpr h1), if_neg (not_lt.mpr h2),
      if_neg (not_lt.mpr h3), if_neg (not_lt.mpr h4), if_pos h5]
  · intro h1 h2 h3 h4 h5 h6
    unfold quality_gate_reason
    rw [if_neg (not_lt.mpr h1), if_neg (not_lt.mpr h2),
      if_neg (not_lt.mpr h3), if_neg (not_lt.mpr h4),
      if_neg (not_lt.mpr h5), if_pos h6]

/-- Witness for C6, scenario D of the specification: an image with
`Overall = 2.0` and every other category at `3` is discarded with
reported reason "Overall". -/
theorem quality_gate_spec_witness :
    quality_gate_reason ⟨2, 3, 3, 3, 3, 3, 3⟩ = some "Overall" :=
  (quality_gate_spec ⟨2, 3, 3, 3, 3, 3, 3⟩).2.1 (by norm_num)

/-- C3: the final trim keeps exactly `min cull_to count` images, the
kept list is ascending by `WeightedScore`, every trimmed-away image
scores no higher than every kept image, `cull_to = 0` keeps nothing,
and `cull_to ≥ count` returns the whole input (as a permutation, still
ascending). -/
theorem trim_exactness :
    ∀ (imgs : List (String × Scores)) (cull_to : Nat),
      (trim_to_target imgs cull_to).length = min cull_to imgs.length ∧
      (trim_to_target imgs cull_to).Pairwise wle ∧
      (∀ p ∈ trim_removed imgs cull_to, ∀ q ∈ trim_to_target imgs cull_to,
        weightedScore p.2 ≤ weightedScore q.2) ∧
      (cull_to = 0 → trim_to_target imgs cull_to = []) ∧
      (imgs.length ≤ cull_to → (trim_to_target imgs cull_to).Perm imgs) := by
  intro imgs cull_to
  have hperm : (sort_by_weighted_score imgs).Perm imgs :=
    List.perm_insertionSort wle imgs
  have hlen : (sort_by_weighted_score imgs).length = imgs.length :=
    hperm.length_eq
  have hsorted : List.Pairwise wle (sort_by_weighted_score imgs) :=
    List.sorted_insertionSort wle imgs
  refine ⟨?_, ?_, ?_, ?_, ?_⟩
  · unfold trim_to_target
    rw [List.length_drop, hlen]
    omega
  · exact List.Pairwise.sublist (List.drop_sublist _ _) hsorted
  · have hsplit :
        List.Pairwise wle (trim_removed imgs cull_to ++ trim_to_target imgs cull_to) := by
      unfold trim_removed trim_to_target
      rw [List.take_append_drop]
      exact hsorted
    exact fun p hp q hq => (List.pairwise_append.mp hsplit).2.2 p hp q hq
  · intro h0
    subst h0
    unfold trim_to_target
    refine List.drop_eq_nil_of_le ?_
    rw [hlen]
    omega
  · intro hle
    have h0 : imgs.length - cull_to = 0 := by omega
    unfold trim_to_target
    rw [h0, List.drop_zero]
    exact hperm

/-- Witness for C3 at a concrete input: with `cull_to = 0` the kept
list is empty. -/
theorem trim_exactness_witness :
    trim_to_target [("a", ⟨3, 3, 3, 3, 3, 3, 3⟩)] 0 = [] :=
  (trim_exactness [("a", ⟨3, 3, 3, 3, 3, 3, 3⟩)] 0).2.2.2.1 rfl

/-- The running maximum of `weightedScore` over a group, floored at the
initial `max_score` (the scan of `find_dups_to_remove` starts it at
`0.0`). -/
def runMax (f : String → Scores) (g : List String) (m : ℚ) : ℚ :=
  g.foldl (fun a x => max a (weightedScore (f x))) m

theorem runMax_cons (f : String → Scores) (x : String) (g : List String) (m : ℚ) :
    runMax f (x :: g) m = runMax f g (max m (weightedScore (f x))) := rfl

theorem le_runMax (f : String → Scores) :
    ∀ (g : List String) (m : ℚ), m ≤ runMax f g m := by
  intro g
  induction g with
  | nil => intro m; exact le_refl m
  | cons x rest ih =>
    intro m
    rw [runMax_cons]
    exact le_trans (le_max_left _ _) (ih _)

theorem runMax_le_of_mem (f : String → Scores) :
    ∀ (g : List String) (m : ℚ) (x : String), x ∈ g →
      weightedScore (f x) ≤ runMax f g m := by
  intro g
  induction g with
  | nil => intro m x hx; exact absurd hx (List.not_mem_nil x)
  | cons z rest ih =>
    intro m x hx
    rw [runMax_cons]
    rcases List.mem_cons.mp hx with h | h
    · subst h
      exact le_trans (le_max_right _ _) (le_runMax f rest _)
    · exact ih _ x h

theorem runMax_le (f : String → Scores) :
    ∀ (g : List String) (m c : ℚ), m ≤ c →
      (∀ x ∈ g, weightedScore (f x) ≤ c) → runMax f g m ≤ c := by
  intro g
  induction g with
  | nil => intro m c hm _; exact hm
  | cons x rest ih =>
    intro m c hm hall
    rw [runMax_cons]
    exact ih _ c (max_le hm (hall x (List.mem_cons_self x rest)))
      (fun y hy => hall y (List.mem_cons_of_mem x hy))

theorem runMax_eq_of_all_le (f : String → Scores) (g : List String) (m : ℚ)
    (h : ∀ x ∈ g, weightedScore (f x) ≤ m) : runMax f g m = m :=
  le_antisymm (runMax_le f g m m (le_refl m) h) (le_runMax f g m)

/-- When no group member beats the running maximum, the scan discards
every member in order and the state is unchanged. -/
theorem find_best_go_all_le (scored : List (String × Scores)) (f : String → Scores) :
    ∀ (g : List String) (m : ℚ) (b : String) (acc : List String),
      (∀ x ∈ g, scored.lookup x = some (f x)) →
      (∀ x ∈ g, weightedScore (f x) ≤ m) →
      find_best_go scored g m b acc = some (m, b, acc ++ g) := by
  intro g
  induction g with
  | nil => intro m b acc _ _; simp [find_best_go]
  | cons x rest ih =>
    intro m b acc hf hle
    have hx : scored.lookup x = some (f x) := hf x (List.mem_cons_self x rest)
    have hxle : weightedScore (f x) ≤ m := hle x (List.mem_cons_self x rest)
    have hstep : find_best_go scored (x :: rest) m b acc
        = find_best_go scored rest m b (acc ++ [x]) := by
      simp only [find_best_go, hx]
      rw [if_neg (not_lt.mpr hxle)]
    rw [hstep, ih m b (acc ++ [x])
      (fun y hy => hf y (List.mem_cons_of_mem x hy))
      (fun y hy => hle y (List.mem_cons_of_mem x hy))]
    simp

/-- The scan succeeds when every member has a score entry. -/
theorem find_best_go_isSome (scored : List (String × Scores)) :
    ∀ (g : List String) (m : ℚ) (b : String) (acc : List String),
      (∀ x ∈ g, (scored.lookup x).isSome) →
      (find_best_go scored g m b acc).isSome := by
  intro g
  induction g with
  | nil => intro m b acc _; simp [find_best_go]
  | cons x rest ih =>
    intro m b acc h
    cases hlk : scored.lookup x with
    | none =>
      have := h x (List.mem_cons_self x rest)
      rw [hlk] at this
      simp at this
    | some s =>
      simp only [find_best_go, hlk]
      by_cases hc : m < weightedScore s
      · rw [if_pos hc]
        exact ih _ _ _ (fun y hy => h y (List.mem_cons_of_mem x hy))
      · rw [if_neg hc]
        exact ih _ _ _ (fun y hy => h y (List.mem_cons_of_mem x hy))

/-- The scan hits `KeyError` as soon as a member lacks a score entry:
the whole call returns `none`. -/
theorem find_best_go_none (scored : List (String × Scores)) :
    ∀ (g : List String) (m : ℚ) (b : String) (acc : List String),
      (∃ x ∈ g, scored.lookup x = none) →
      find_best_go scored g m b acc = none := by
  intro g
  induction g with
  | nil => intro m b acc h; exact absurd h (by simp)
  | cons x rest ih =>
    intro m b acc h
    cases hlk : scored.lookup x with
    | none => simp [find_best_go, hlk]
    | some s =>
      obtain ⟨y, hy, hynone⟩ := h
      have hyr : y ∈ rest := by
        rcases List.mem_cons.mp hy with h' | h'
        · subst h'
          rw [hlk] at hynone
          exact absurd hynone (by simp)
        · exact h'
      simp only [find_best_go, hlk]
      by_cases hc : m < weightedScore s
      · rw [if_pos hc]
        exact ih _ _ _ ⟨y, hyr, hynone⟩
      · rw [if_neg hc]
        exact ih _ _ _ ⟨y, hyr, hynone⟩

/-- Accumulator bookkeeping of the scan, with no hypotheses: the
accumulator only grows, everything added comes from the group (or is
the displaced incoming best), and the final best is a group member or
the incoming one. -/
theorem find_best_go_acc_sub (scored : List (String × Scores)) :
    ∀ (g : List String) (m : ℚ) (b : String) (acc : List String)
      (m' : ℚ) (b' : String) (acc2 : List String),
      find_best_go scored g m b acc = some (m', b', acc2) →
      (∀ y ∈ acc, y ∈ acc2) ∧
      (∀ y ∈ acc2, y ∈ acc ∨ y ∈ g ∨ (y = b ∧ b ≠ "")) ∧
      (b' ∈ g ∨ b' = b) := by
  intro g
  induction g with
  | nil =>
    intro m b acc m' b' acc2 h
    simp only [find_best_go, Option.some.injEq, Prod.mk.injEq] at h
    obtain ⟨-, hb, hacc⟩ := h
    subst hb; subst hacc
    exact ⟨fun y hy => hy, fun y hy => Or.inl hy, Or.inr rfl⟩
  | cons x rest ih =>
    intro m b acc m' b' acc2 h
    cases hlk : scored.lookup x with
    | none => rw [find_best_go, hlk] at h; exact absurd h (by simp)
    | some s =>
      simp only [find_best_go, hlk] at h
      by_cases hc : m < weightedScore s
      · rw [if_pos hc] at h
        obtain ⟨s1, s2, s3⟩ := ih _ _ _ _ _ _ h
        refine ⟨?_, ?_, ?_⟩
        · intro y hy
          refine s1 y ?_
          by_cases hb : b = "" <;> simp [hb, hy]
        · intro y hy
          rcases s2 y hy with h' | h' | h'
          · by_cases hb : b = ""
            · rw [if_pos hb] at h'
              exact Or.inl h'
            · rw [if_neg hb] at h'
              rcases List.mem_append.mp h' with h'' | h''
              · exact Or.inl h''
              · exact Or.inr (Or.inr ⟨List.mem_singleton.mp h'', hb⟩)
          · exact Or.inr (Or.inl (List.mem_cons_of_mem x h'))
          · exact Or.inr (Or.inl (h'.1 ▸ List.mem_cons_self x rest))
        · rcases s3 with h' | h'
          · exact Or.inl (List.mem_cons_of_mem x h')
          · exact Or.inl (h' ▸ List.mem_cons_self x rest)
      · rw [if_neg hc] at h
        obtain ⟨s1, s2, s3⟩ := ih _ _ _ _ _ _ h
        refine ⟨?_, ?_, ?_⟩
        · intro y hy
          exact s1 y (by simp [hy])
        · intro y hy
          rcases s2 y hy with h' | h' | h'
          · rcases List.mem_append.mp h' with h'' | h''
            · exact Or.inl h''
            · exact Or.inr (Or.inl ((List.mem_singleton.mp h'') ▸ List.mem_cons_self x rest))
          · exact Or.inr (Or.inl (List.mem_cons_of_mem x h'))
          · exact Or.inr (Or.inr h')
        · rcases s3 with h' | h'
          · exact Or.inl (List.mem_cons_of_mem x h')
          · exact Or.inr h'

/-- The scan preserves freedom from duplicates: starting from a
duplicate-free accumulator disjoint from a duplicate-free group (and a
best-image sentinel in neither), the resulting discard accumulator is
duplicate-free and does not contain the final best image. -/
theorem find_best_go_nodup (scored : List (String × Scores)) :
    ∀ (g : List String) (m : ℚ) (b : String) (acc : List String)
      (m' : ℚ) (b' : String) (acc2 : List String),
      find_best_go scored g m b acc = some (m', b', acc2) →
      acc.Nodup → g.Nodup → (∀ y ∈ g, y ∉ acc) → b ∉ acc → b ∉ g →
      acc2.Nodup ∧ b' ∉ acc2 := by
  intro g
  induction g with
  | nil =>
    intro m b acc m' b' acc2 h hacc _ _ hbacc _
    simp only [find_best_go, Option.some.injEq, Prod.mk.injEq] at h
    obtain ⟨-, hb, haccEq⟩ := h
    subst hb; subst haccEq
    exact ⟨hacc, hbacc⟩
  | cons x rest ih =>
    intro m b acc m' b' acc2 h hacc hnd hdisj hbacc hbg
    have hxrest : x ∉ rest := (List.nodup_cons.mp hnd).1
    have hndr : rest.Nodup := (List.nodup_cons.mp hnd).2
    have hbx : b ≠ x := fun hbx => hbg (hbx ▸ List.mem_cons_self x rest)
    have hbr : b ∉ rest := fun hbr => hbg (List.mem_cons_of_mem x hbr)
    have hxacc : x ∉ acc := hdisj x (List.mem_cons_self x rest)
    cases hlk : scored.lookup x with
    | none => rw [find_best_go, hlk] at h; exact absurd h (by simp)
    | some s =>
      simp only [find_best_go, hlk] at h
      by_cases hc : m < weightedScore s
      · rw [if_pos hc] at h
        by_cases hb : b = ""
        · rw [if_pos hb] at h
          exact ih _ _ _ _ _ _ h hacc hndr
            (fun y hy => hdisj y (List.mem_cons_of_mem x hy)) hxacc hxrest
        · rw [if_neg hb] at h
          refine ih _ _ _ _ _ _ h ?_ hndr ?_ ?_ hxrest
          · exact List.nodup_append.mpr
              ⟨hacc, List.nodup_singleton b,
                fun a ha hb' => hbacc ((List.mem_singleton.mp hb') ▸ ha)⟩
          · intro y hy hmem
            rcases List.mem_append.mp hmem with h' | h'
            · exact hdisj y (List.mem_cons_of_mem x hy) h'
            · exact hbr ((List.mem_singleton.mp h') ▸ hy)
          · intro hmem
            rcases List.mem_append.mp hmem with h' | h'
            · exact hxacc h'
            · exact hbx.symm (List.mem_singleton.mp h')
      · rw [if_neg hc] at h
        refine ih _ _ _ _ _ _ h ?_ hndr ?_ ?_ hbr
        · exact List.nodup_append.mpr
            ⟨hacc, List.nodup_singleton x,
              fun a ha hx' => hxacc ((List.mem_singleton.mp hx') ▸ ha)⟩
        · intro y hy hmem
          rcases List.mem_append.mp hmem with h' | h'
          · exact hdisj y (List.mem_cons_of_mem x hy) h'
          · exact hxrest ((List.mem_singleton.mp h') ▸ hy)
        · intro hmem
          rcases List.mem_append.mp hmem with h' | h'
          · exact hbacc h'
          · exact hbx (List.mem_singleton.mp h')

/-- Full characterization of the scan on a duplicate-free group that
contains at least one member strictly above the incoming running
maximum: the scan returns the running maximum of the whole group, the
surviving best image is the earliest member attaining it, every other
member (and the displaced incoming best) lands in the accumulator, and
nothing else does. -/
theorem find_best_go_spec (scored : List (String × Scores)) (f : String → Scores) :
    ∀ (g : List String) (m : ℚ) (b : String) (acc : List String),
      (∀ x ∈ g, scored.lookup x = some (f x)) →
      g.Nodup → b ∉ g → "" ∉ g →
      (∃ x ∈ g, m < weightedScore (f x)) →
      ∃ s acc2,
        find_best_go scored g m b acc = some (runMax f g m, s, acc2) ∧
        s ∈ g ∧ weightedScore (f s) = runMax f g m ∧
        (∃ g1 g2, g = g1 ++ s :: g2 ∧
          ∀ y ∈ g1, weightedScore (f y) < runMax f g m) ∧
        (∀ y ∈ acc, y ∈ acc2) ∧
        (b ≠ "" → b ∈ acc2) ∧
        (∀ y ∈ g, y ≠ s → y ∈ acc2) ∧
        (∀ y ∈ acc2, y ∈ acc ∨ (y ∈ g ∧ y ≠ s) ∨ (y = b ∧ b ≠ "")) := by
  intro g
  induction g with
  | nil =>
    intro m b acc _ _ _ _ hex
    exact absurd hex (by simp)
  | cons x rest ih =>
    intro m b acc hf hnd hbg hsent hex
    have hx : scored.lookup x = some (f x) := hf x (List.mem_cons_self x rest)
    have hfr : ∀ y ∈ rest, scored.lookup y = some (f y) :=
      fun y hy => hf y (List.mem_cons_of_mem x hy)
    have hxrest : x ∉ rest := (List.nodup_cons.mp hnd).1
    have hndr : rest.Nodup := (List.nodup_cons.mp hnd).2
    have hxne : x ≠ "" := fun h => hsent (h ▸ List.mem_cons_self x rest)
    have hsentr : "" ∉ rest := fun h => hsent (List.mem_cons_of_mem x h)
    by_cases hc : m < weightedScore (f x)
    · -- x displaces the incoming best
      have hstep : find_best_go scored (x :: rest) m b acc
          = find_best_go scored rest (weightedScore (f x)) x
              (if b = "" then acc else acc ++ [b]) := by
        simp only [find_best_go, hx]
        rw [if_pos hc]
      have haccsub : ∀ y ∈ acc, y ∈ (if b = "" then acc else acc ++ [b]) := by
        intro y hy
        by_cases hb : b = "" <;> simp [hb, hy]
      by_cases hex2 : ∃ y ∈ rest, weightedScore (f x) < weightedScore (f y)
      · have hM : runMax f (x :: rest) m = runMax f rest (weightedScore (f x)) := by
          rw [runMax_cons, max_eq_right hc.le]
        obtain ⟨s, accF, h1, hs, hws, ⟨g1, g2, hdec, hlt⟩, hacc2, hbmem, hother, hrev⟩ :=
          ih (weightedScore (f x)) x (if b = "" then acc else acc ++ [b])
            hfr hndr hxrest hsentr hex2
        have hxs : x ≠ s := fun h => hxrest (h ▸ hs)
        obtain ⟨y0, hy0, hy0lt⟩ := hex2
        have hxlt : weightedScore (f x) < runMax f (x :: rest) m := by
          rw [hM]
          exact lt_of_lt_of_le hy0lt (runMax_le_of_mem f rest _ y0 hy0)
        refine ⟨s, accF, ?_, List.mem_cons_of_mem x hs, ?_, ?_, ?_, ?_, ?_, ?_⟩
        · rw [hstep, hM]
          exact h1
        · rw [hM]
          exact hws
        · refine ⟨x :: g1, g2, by rw [hdec]; rfl, ?_⟩
          intro y hy
          rcases List.mem_cons.mp hy with h' | h'
          · exact h' ▸ hxlt
          · rw [hM]
            exact hlt y h'
        · exact fun y hy => hacc2 y (haccsub y hy)
        · intro hb
          refine hacc2 b ?_
          rw [if_neg hb]
          exact List.mem_append.mpr (Or.inr (List.mem_singleton.mpr rfl))
        · intro y hy hys
          rcases List.mem_cons.mp hy with h' | h'
          · exact h' ▸ hbmem hxne
          · exact hother y h' hys
        · intro y hy
          rcases hrev y hy with h' | h' | h'
          · by_cases hb : b = ""
            · rw [if_pos hb] at h'
              exact Or.inl h'
            · rw [if_neg hb] at h'
              rcases List.mem_append.mp h' with h'' | h''
              · exact Or.inl h''
              · exact Or.inr (Or.inr ⟨List.mem_singleton.mp h'', hb⟩)
          · exact Or.inr (Or.inl ⟨List.mem_cons_of_mem x h'.1, h'.2⟩)
          · exact Or.inr (Or.inl ⟨h'.1 ▸ List.mem_cons_self x rest, h'.1 ▸ hxs⟩)
      · -- x is the survivor: nothing in the tail beats it
        push_neg at hex2
        have hM : runMax f (x :: rest) m = weightedScore (f x) := by
          rw [runMax_cons, max_eq_right hc.le]
          exact runMax_eq_of_all_le f rest _ hex2
        have heq := find_best_go_all_le scored f rest (weightedScore (f x)) x
          (if b = "" then acc else acc ++ [b]) hfr hex2
        refine ⟨x, (if b = "" then acc else acc ++ [b]) ++ rest, ?_,
          List.mem_cons_self x rest, hM.symm, ⟨[], rest, rfl, by simp⟩, ?_, ?_, ?_, ?_⟩
        · rw [hstep, hM]
          exact heq
        · exact fun y hy => List.mem_append.mpr (Or.inl (haccsub y hy))
        · intro hb
          refine List.mem_append.mpr (Or.inl ?_)
          rw [if_neg hb]
          exact List.mem_append.mpr (Or.inr (List.mem_singleton.mpr rfl))
        · intro y hy hys
          rcases List.mem_cons.mp hy with h' | h'
          · exact absurd h' hys
          · exact List.mem_append.mpr (Or.inr h')
        · intro y hy
          rcases List.mem_append.mp hy with h' | h'
          · by_cases hb : b = ""
            · rw [if_pos hb] at h'
              exact Or.inl h'
            · rw [if_neg hb] at h'
              rcases List.mem_append.mp h' with h'' | h''
              · exact Or.inl h''
              · exact Or.inr (Or.inr ⟨List.mem_singleton.mp h'', hb⟩)
          · exact Or.inr (Or.inl ⟨List.mem_cons_of_mem x h',
              fun hyx => hxrest (hyx ▸ h')⟩)
    · -- x does not beat the incoming maximum and is discarded at once
      have hxle : weightedScore (f x) ≤ m := not_lt.mp hc
      have hstep : find_best_go scored (x :: rest) m b acc
          = find_best_go scored rest m b (acc ++ [x]) := by
        simp only [find_best_go, hx]
        rw [if_neg hc]
      obtain ⟨y0, hy0, hy0lt⟩ := hex
      have hy0r : y0 ∈ rest := by
        rcases List.mem_cons.mp hy0 with h' | h'
        · exact absurd (h' ▸ hy0lt) (not_lt.mpr hxle)
        · exact h'
      have hM : runMax f (x :: rest) m = runMax f rest m := by
        rw [runMax_cons, max_eq_left hxle]
      have hbr : b ∉ rest := fun h => hbg (List.mem_cons_of_mem x h)
      obtain ⟨s, accF, h1, hs, hws, ⟨g1, g2, hdec, hlt⟩, hacc2, hbmem, hother, hrev⟩ :=
        ih m b (acc ++ [x]) hfr hndr hbr hsentr ⟨y0, hy0r, hy0lt⟩
      have hxs : x ≠ s := fun h => hxrest (h ▸ hs)
      have hxmem : x ∈ accF :=
        hacc2 x (List.mem_append.mpr (Or.inr (List.mem_singleton.mpr rfl)))
      refine ⟨s, accF, ?_, List.mem_cons_of_mem x hs, ?_, ?_, ?_, hbmem, ?_, ?_⟩
      · rw [hstep, hM]
        exact h1
      · rw [hM]
        exact hws
      · refine ⟨x :: g1, g2, by rw [hdec]; rfl, ?_⟩
        intro y hy
        rcases List.mem_cons.mp hy with h' | h'
        · subst h'
          rw [hM]
          exact lt_of_le_of_lt hxle
            (lt_of_lt_of_le hy0lt (runMax_le_of_mem f rest m y0 hy0r))
        · rw [hM]
          exact hlt y h'
      · exact fun y hy => hacc2 y (List.mem_append.mpr (Or.inl hy))
      · intro y hy hys
        rcases List.mem_cons.mp hy with h' | h'
        · exact h' ▸ hxmem
        · exact hother y h' hys
      · intro y hy
        rcases hrev y hy with h' | h' | h'
        · rcases List.mem_append.mp h' with h'' | h''
          · exact Or.inl h''
          · exact Or.inr (Or.inl ⟨(List.mem_singleton.mp h'') ▸ List.mem_cons_self x rest,
              (List.mem_singleton.mp h'') ▸ hxs⟩)
        · exact Or.inr (Or.inl ⟨List.mem_cons_of_mem x h'.1, h'.2⟩)
        · exact Or.inr (Or.inr h')

/-- Splitting the group loop of `find_dups_to_remove` at any point. -/
theorem find_dups_go_append (scored : List (String × Scores)) :
    ∀ (gs1 gs2 : List (List String)) (acc : List String),
      find_dups_go scored (gs1 ++ gs2) acc
        = (find_dups_go scored gs1 acc).bind (fun l => find_dups_go scored gs2 l) := by
  intro gs1
  induction gs1 with
  | nil => intro gs2 acc; simp [find_dups_go]
  | cons g gs ih =>
    intro gs2 acc
    simp only [List.cons_append, find_dups_go]
    cases find_best_go scored g 0 "" acc with
    | none => simp
    | some r => simp [ih]

/-- The group loop succeeds when every member of every group has a
score entry. -/
theorem find_dups_go_isSome (scored : List (String × Scores)) :
    ∀ (gs : List (List String)) (acc : List String),
      (∀ g ∈ gs, ∀ x ∈ g, (scored.lookup x).isSome) →
      (find_dups_go scored gs acc).isSome := by
  intro gs
  induction gs with
  | nil => intro acc _; simp [find_dups_go]
  | cons g gs ih =>
    intro acc h
    have hsome := find_best_go_isSome scored g 0 "" acc
      (h g (List.mem_cons_self g gs))
    obtain ⟨r, hr⟩ := Option.isSome_iff_exists.mp hsome
    simp only [find_dups_go, hr]
    exact ih _ (fun g' hg' => h g' (List.mem_cons_of_mem g hg'))

/-- C10 core: the group loop raises `KeyError` (returns `none`) exactly
when some group contains a member without a score entry. -/
theorem find_dups_go_none_iff (scored : List (String × Scores)) :
    ∀ (gs : List (List String)) (acc : List String),
      (find_dups_go scored gs acc = none ↔
        ∃ g ∈ gs, ∃ x ∈ g, scored.lookup x = none) := by
  intro gs
  induction gs with
  | nil => intro acc; simp [find_dups_go]
  | cons g gs ih =>
    intro acc
    constructor
    · intro h
      cases hb : find_best_go scored g 0 "" acc with
      | none =>
        by_cases hall : ∀ x ∈ g, (scored.lookup x).isSome
        · exact absurd hb (by
            have := find_best_go_isSome scored g 0 "" acc hall
            intro hcon
            rw [hcon] at this
            simp at this)
        · push_neg at hall
          obtain ⟨x, hx, hxn⟩ := hall
          refine ⟨g, List.mem_cons_self g gs, x, hx, ?_⟩
          cases hlk : scored.lookup x with
          | none => rfl
          | some s => rw [hlk] at hxn; simp at hxn
      | some r =>
        rw [find_dups_go, hb] at h
        obtain ⟨g', hg', hx⟩ := (ih r.2.2).mp h
        exact ⟨g', List.mem_cons_of_mem g hg', hx⟩
    · intro ⟨g', hg', x, hx, hxn⟩
      rcases List.mem_cons.mp hg' with h' | h'
      · subst h'
        rw [find_dups_go, find_best_go_none scored g' 0 "" acc ⟨x, hx, hxn⟩]
      · cases hb : find_best_go scored g 0 "" acc with
        | none => rw [find_dups_go, hb]
        | some r =>
          rw [find_dups_go, hb]
          exact (ih r.2.2).mpr ⟨g', h', x, hx, hxn⟩

/-- Accumulator bookkeeping of the group loop: the accumulator only
grows and everything added is a member of some group. -/
theorem find_dups_go_sub (scored : List (String × Scores)) :
    ∀ (gs : List (List String)) (acc l : List String),
      find_dups_go scored gs acc = some l →
      (∀ y ∈ acc, y ∈ l) ∧ (∀ y ∈ l, y ∈ acc ∨ y ∈ gs.flatten) := by
  intro gs
  induction gs with
  | nil =>
    intro acc l h
    simp only [find_dups_go, Option.some.injEq] at h
    subst h
    exact ⟨fun y hy => hy, fun y hy => Or.inl hy⟩
  | cons g gs ih =>
    intro acc l h
    cases hb : find_best_go scored g 0 "" acc with
    | none => rw [find_dups_go, hb] at h; exact absurd h (by simp)
    | some r =>
      rw [find_dups_go, hb] at h
      obtain ⟨m', b', acc2⟩ := r
      obtain ⟨s1, s2, -⟩ := find_best_go_acc_sub scored g 0 "" acc m' b' acc2 hb
      obtain ⟨t1, t2⟩ := ih acc2 l h
      refine ⟨fun y hy => t1 y (s1 y hy), ?_⟩
      intro y hy
      rcases t2 y hy with h' | h'
      · rcases s2 y h' with h'' | h'' | h''
        · exact Or.inl h''
        · exact Or.inr (by simp [List.mem_flatten]; exact Or.inl h'')
        · exact absurd h''.2 (by simp)
      · exact Or.inr (by
          rw [List.flatten_cons]
          exact List.mem_append.mpr (Or.inr h'))

/-- When the groups are globally duplicate-free (no image in two
groups, none twice in one) and no image is named by the empty-string
sentinel, the produced discard list is duplicate-free and
sentinel-free. -/
theorem find_dups_go_nodup (scored : List (String × Scores)) :
    ∀ (gs : List (List String)) (acc l : List String),
      find_dups_go scored gs acc = some l →
      acc.Nodup → gs.flatten.Nodup → "" ∉ gs.flatten → "" ∉ acc →
      (∀ y ∈ gs.flatten, y ∉ acc) →
      l.Nodup ∧ "" ∉ l := by
  intro gs
  induction gs with
  | nil =>
    intro acc l h hacc _ _ hs _
    simp only [find_dups_go, Option.some.injEq] at h
    subst h
    exact ⟨hacc, hs⟩
  | cons g gs ih =>
    intro acc l h hacc hflat hsent hsacc hdisj
    rw [List.flatten_cons] at hflat hsent
    have hg : g.Nodup := (List.nodup_append.mp hflat).1
    have hgs : gs.flatten.Nodup := (List.nodup_append.mp hflat).2.1
    have hgdisj : g.Disjoint gs.flatten := (List.nodup_append.mp hflat).2.2
    have hsg : "" ∉ g := fun h' => hsent (List.mem_append.mpr (Or.inl h'))
    have hsgs : "" ∉ gs.flatten := fun h' => hsent (List.mem_append.mpr (Or.inr h'))
    cases hb : find_best_go scored g 0 "" acc with
    | none => rw [find_dups_go, hb] at h; exact absurd h (by simp)
    | some r =>
      rw [find_dups_go, hb] at h
      obtain ⟨m', b', acc2⟩ := r
      obtain ⟨hn2, -⟩ := find_best_go_nodup scored g 0 "" acc m' b' acc2 hb hacc hg
        (fun y hy => hdisj y (by rw [List.flatten_cons]; exact List.mem_append.mpr (Or.inl hy)))
        hsacc hsg
      obtain ⟨-, s2, -⟩ := find_best_go_acc_sub scored g 0 "" acc m' b' acc2 hb
      have hsacc2 : "" ∉ acc2 := by
        intro hmem
        rcases s2 "" hmem with h' | h' | h'
        · exact hsacc h'
        · exact hsg h'
        · exact h'.2 rfl
      refine ih acc2 l h hn2 hgs hsgs hsacc2 ?_
      intro y hy hmem
      rcases s2 y hmem with h' | h' | h'
      · exact hdisj y (by rw [List.flatten_cons]; exact List.mem_append.mpr (Or.inr hy)) h'
      · exact hgdisj h' hy
      · exact h'.2 rfl

/-- Group-loop splitting in the useful direction. -/
theorem find_dups_go_append_some (scored : List (String × Scores))
    (gs1 gs2 : List (List String)) (acc l1 : List String)
    (h : find_dups_go scored gs1 acc = some l1) :
    find_dups_go scored (gs1 ++ gs2) acc = find_dups_go scored gs2 l1 := by
  rw [find_dups_go_append, h]
  rfl

/-- C7: in a duplicate group whose members all have non-positive
`WeightedScore`, the scan never beats the running maximum initialised
to `0.0` (the comparison is strict), so every member of the group —
including the first, which may be the true maximum — is placed in the
discard list returned by `find_dups_to_remove`. -/
theorem nonpositive_group_all_discarded (scored : List (String × Scores))
    (f : String → Scores) (gs : List (List String)) (g : List String)
    (hf : ∀ x ∈ gs.flatten, scored.lookup x = some (f x))
    (hg : g ∈ gs)
    (hnp : ∀ x ∈ g, weightedScore (f x) ≤ 0) :
    ∃ l, find_dups_to_remove scored gs = some l ∧ ∀ x ∈ g, x ∈ l := by
  obtain ⟨gs1, gs2, rfl⟩ := List.append_of_mem hg
  have hmemflat : ∀ g' ∈ gs1 ++ g :: gs2, ∀ x ∈ g', x ∈ (gs1 ++ g :: gs2).flatten :=
    fun g' hg' x hx => List.mem_flatten.mpr ⟨g', hg', hx⟩
  have hsome1 : (find_dups_go scored gs1 []).isSome :=
    find_dups_go_isSome scored gs1 []
      (fun g' hg' x hx => by
        rw [hf x (hmemflat g' (List.mem_append.mpr (Or.inl hg')) x hx)]
        rfl)
  obtain ⟨acc1, hacc1⟩ := Option.isSome_iff_exists.mp hsome1
  have hgmem : g ∈ gs1 ++ g :: gs2 :=
    List.mem_append.mpr (Or.inr (List.mem_cons_self g gs2))
  have hbest : find_best_go scored g 0 "" acc1 = some (0, "", acc1 ++ g) :=
    find_best_go_all_le scored f g 0 "" acc1
      (fun x hx => hf x (hmemflat g hgmem x hx)) hnp
  have hsome2 : (find_dups_go scored gs2 (acc1 ++ g)).isSome :=
    find_dups_go_isSome scored gs2 (acc1 ++ g)
      (fun g' hg' x hx => by
        rw [hf x (hmemflat g'
          (List.mem_append.mpr (Or.inr (List.mem_cons_of_mem g hg'))) x hx)]
        rfl)
  obtain ⟨l, hl⟩ := Option.isSome_iff_exists.mp hsome2
  refine ⟨l, ?_, ?_⟩
  · unfold find_dups_to_remove
    rw [find_dups_go_append_some scored gs1 (g :: gs2) [] acc1 hacc1]
    simp only [find_dups_go, hbest]
    exact hl
  · intro x hx
    obtain ⟨t1, -⟩ := find_dups_go_sub scored gs2 (acc1 ++ g) l hl
    exact t1 x (List.mem_append.mpr (Or.inr hx))

/-- Witness for C7: a two-image group with all-zero score vectors has
both members discarded. -/
theorem nonpositive_group_all_discarded_witness :
    ∃ l, find_dups_to_remove
        [("a", (⟨0, 0, 0, 0, 0, 0, 0⟩ : Scores)), ("b", (⟨0, 0, 0, 0, 0, 0, 0⟩ : Scores))]
        [["a", "b"]] = some l ∧ ∀ x ∈ ["a", "b"], x ∈ l :=
  nonpositive_group_all_discarded
    [("a", (⟨0, 0, 0, 0, 0, 0, 0⟩ : Scores)), ("b", (⟨0, 0, 0, 0, 0, 0, 0⟩ : Scores))]
    (fun _ => (⟨0, 0, 0, 0, 0, 0, 0⟩ : Scores)) [["a", "b"]] ["a", "b"]
    (by
      intro x hx
      simp only [List.flatten_cons, List.flatten_nil, List.append_nil] at hx
      rcases List.mem_cons.mp hx with h | h
      · subst h; rfl
      · rcases List.mem_cons.mp h with h' | h'
        · subst h'; rfl
        · exact absurd h' (List.not_mem_nil x))
    (by simp)
    (by
      intro x hx
      norm_num [weightedScore])

/-- C2 (amended): for a duplicate group with pairwise-distinct members,
all of them scored, none named by the empty-string sentinel, and at
least one member of strictly positive `WeightedScore`, exactly one
member is absent from the discard list returned by
`find_dups_to_remove`, and that member attains the maximum
`WeightedScore` of the group, ties broken in favour of the earliest
member in group order.  (The positivity hypothesis is forced by the
running maximum starting at `0.0`: an all-non-positive group loses
every member, see the counterexample.) -/
theorem find_dups_survivor_spec (scored : List (String × Scores))
    (f : String → Scores) (gs : List (List String)) (g : List String)
    (hf : ∀ x ∈ gs.flatten, scored.lookup x = some (f x))
    (hnd : gs.flatten.Nodup)
    (hsent : "" ∉ gs.flatten)
    (hg : g ∈ gs)
    (hlen : 2 ≤ g.length)
    (hpos : ∃ x ∈ g, 0 < weightedScore (f x)) :
    ∃ l s, find_dups_to_remove scored gs = some l ∧ s ∈ g ∧ s ∉ l ∧
      (∀ y ∈ g, y ≠ s → y ∈ l) ∧
      (∀ y ∈ g, weightedScore (f y) ≤ weightedScore (f s)) ∧
      ∃ g1 g2, g = g1 ++ s :: g2 ∧
        ∀ y ∈ g1, weightedScore (f y) < weightedScore (f s) := by
  obtain ⟨gs1, gs2, rfl⟩ := List.append_of_mem hg
  have hmemflat : ∀ g' ∈ gs1 ++ g :: gs2, ∀ x ∈ g', x ∈ (gs1 ++ g :: gs2).flatten :=
    fun g' hg' x hx => List.mem_flatten.mpr ⟨g', hg', hx⟩
  have hgmem : g ∈ gs1 ++ g :: gs2 :=
    List.mem_append.mpr (Or.inr (List.mem_cons_self g gs2))
  have hflatdec : (gs1 ++ g :: gs2).flatten = gs1.flatten ++ (g ++ gs2.flatten) := by
    rw [List.flatten_append, List.flatten_cons]
  have hndg : g.Nodup := by
    rw [hflatdec] at hnd
    exact (List.nodup_append.mp (List.nodup_append.mp hnd).2.1).1
  have hdisj1 : ∀ y ∈ g, y ∉ gs1.flatten := by
    rw [hflatdec] at hnd
    intro y hy hy1
    exact (List.nodup_append.mp hnd).2.2 hy1 (List.mem_append.mpr (Or.inl hy))
  have hdisj2 : ∀ y ∈ g, y ∉ gs2.flatten := by
    rw [hflatdec] at hnd
    intro y hy hy2
    exact (List.nodup_append.mp (List.nodup_append.mp hnd).2.1).2.2 hy hy2
  have hsentg : "" ∉ g := fun h => hsent (hmemflat g hgmem "" h)
  -- groups before g succeed
  have hsome1 : (find_dups_go scored gs1 []).isSome :=
    find_dups_go_isSome scored gs1 []
      (fun g' hg' x hx => by
        rw [hf x (hmemflat g' (List.mem_append.mpr (Or.inl hg')) x hx)]
        rfl)
  obtain ⟨acc1, hacc1⟩ := Option.isSome_iff_exists.mp hsome1
  have hacc1sub : ∀ y ∈ acc1, y ∈ gs1.flatten := by
    obtain ⟨-, t2⟩ := find_dups_go_sub scored gs1 [] acc1 hacc1
    intro y hy
    rcases t2 y hy with h' | h'
    · exact absurd h' (List.not_mem_nil y)
    · exact h'
  -- the scan of g
  obtain ⟨s, acc2, hbest, hs, hws, ⟨g1, g2, hdec, hlt⟩, hacc2, -, hother, hrev⟩ :=
    find_best_go_spec scored f g 0 "" acc1
      (fun x hx => hf x (hmemflat g hgmem x hx)) hndg
      (fun h => hsentg h) hsentg hpos
  have hsacc2 : s ∉ acc2 := by
    intro hmem
    rcases hrev s hmem with h' | h' | h'
    · exact hdisj1 s hs (hacc1sub s h')
    · exact h'.2 rfl
    · exact hsentg (h'.1 ▸ hs)
  -- groups after g succeed
  have hsome2 : (find_dups_go scored gs2 acc2).isSome :=
    find_dups_go_isSome scored gs2 acc2
      (fun g' hg' x hx => by
        rw [hf x (hmemflat g'
          (List.mem_append.mpr (Or.inr (List.mem_cons_of_mem g hg'))) x hx)]
        rfl)
  obtain ⟨l, hl⟩ := Option.isSome_iff_exists.mp hsome2
  obtain ⟨t1, t2⟩ := find_dups_go_sub scored gs2 acc2 l hl
  refine ⟨l, s, ?_, hs, ?_, ?_, ?_, ?_⟩
  · unfold find_dups_to_remove
    rw [find_dups_go_append_some scored gs1 (g :: gs2) [] acc1 hacc1]
    simp only [find_dups_go, hbest]
    exact hl
  · intro hmem
    rcases t2 s hmem with h' | h'
    · exact hsacc2 h'
    · exact hdisj2 s hs h'
  · exact fun y hy hys => t1 y (hother y hy hys)
  · intro y hy
    rw [hws]
    exact runMax_le_of_mem f g 0 y hy
  · refine ⟨g1, g2, hdec, ?_⟩
    intro y hy
    rw [hws]
    exact hlt y hy

/-- Witness for C2 (amended) at a concrete input: group `["a", "b"]`
with weighted scores `3` and `1` — "a" survives, "b" is discarded. -/
theorem find_dups_survivor_spec_witness :
    ∃ l s, find_dups_to_remove
        [("a", (⟨3, 3, 3, 3, 3, 3, 3⟩ : Scores)), ("b", (⟨1, 1, 1, 1, 1, 1, 1⟩ : Scores))]
        [["a", "b"]] = some l ∧ s ∈ ["a", "b"] ∧ s ∉ l ∧
      (∀ y ∈ ["a", "b"], y ≠ s → y ∈ l) ∧
      (∀ y ∈ ["a", "b"],
        weightedScore ((fun x => if x = "a" then (⟨3, 3, 3, 3, 3, 3, 3⟩ : Scores)
          else ⟨1, 1, 1, 1, 1, 1, 1⟩) y) ≤
        weightedScore ((fun x => if x = "a" then (⟨3, 3, 3, 3, 3, 3, 3⟩ : Scores)
          else ⟨1, 1, 1, 1, 1, 1, 1⟩) s)) ∧
      ∃ g1 g2, ["a", "b"] = g1 ++ s :: g2 ∧
        ∀ y ∈ g1,
          weightedScore ((fun x => if x = "a" then (⟨3, 3, 3, 3, 3, 3, 3⟩ : Scores)
            else ⟨1, 1, 1, 1, 1, 1, 1⟩) y) <
          weightedScore ((fun x => if x = "a" then (⟨3, 3, 3, 3, 3, 3, 3⟩ : Scores)
            else ⟨1, 1, 1, 1, 1, 1, 1⟩) s) :=
  find_dups_survivor_spec
    [("a", (⟨3, 3, 3, 3, 3, 3, 3⟩ : Scores)), ("b", (⟨1, 1, 1, 1, 1, 1, 1⟩ : Scores))]
    (fun x => if x = "a" then (⟨3, 3, 3, 3, 3, 3, 3⟩ : Scores) else ⟨1, 1, 1, 1, 1, 1, 1⟩)
    [["a", "b"]] ["a", "b"]
    (by
      intro x hx
      simp only [List.flatten_cons, List.flatten_nil, List.append_nil] at hx
      rcases List.mem_cons.mp hx with h | h
      · subst h; rfl
      · rcases List.mem_cons.mp h with h' | h'
        · subst h'; rfl
        · exact absurd h' (List.not_mem_nil x))
    (by decide) (by decide) (by decide) (by decide)
    ⟨"a", by decide, by norm_num [weightedScore]⟩

/-- C2 counterexample (the boundary defect): in the group
`["a", "b"]` where both members have all-zero score vectors (weighted
score `0`), `find_dups_to_remove` discards both members — no member of
the group is absent from the discard list, refuting the claim that
exactly one always survives. -/
theorem find_dups_all_nonpositive_counterexample :
    find_dups_to_remove
        [("a", (⟨0, 0, 0, 0, 0, 0, 0⟩ : Scores)), ("b", (⟨0, 0, 0, 0, 0, 0, 0⟩ : Scores))]
        [["a", "b"]] = some ["a", "b"] := by
  have hb : find_best_go
      [("a", (⟨0, 0, 0, 0, 0, 0, 0⟩ : Scores)), ("b", (⟨0, 0, 0, 0, 0, 0, 0⟩ : Scores))]
      ["a", "b"] 0 "" [] = some (0, "", [] ++ ["a", "b"]) :=
    find_best_go_all_le _ (fun _ => (⟨0, 0, 0, 0, 0, 0, 0⟩ : Scores)) ["a", "b"] 0 "" []
      (by
        intro x hx
        rcases List.mem_cons.mp hx with h | h
        · subst h; rfl
        · rcases List.mem_cons.mp h with h' | h'
          · subst h'; rfl
          · exact absurd h' (List.not_mem_nil x))
      (by intro x hx; norm_num [weightedScore])
  unfold find_dups_to_remove
  simp only [find_dups_go, hb, List.nil_append]

/-- C10: `find_dups_to_remove` is total exactly when every member of
every duplicate group has an entry in the scored-images map — a group
member absent from the map makes the unguarded lookup raise `KeyError`
(modelled as `none`) — and the precondition is violable from the
pipeline: the temporal grouper accepts `photo.tiff` (its
extension filter takes eight extensions including `.tiff`, `.bmp`,
`.gif`) while the scorer's globs (`*.jpg`, `*.png`, `*.webp`) do not
produce a score entry for it. -/
theorem find_dups_requires_scored_members :
    (∀ (scored : List (String × Scores)) (gs : List (List String)),
      (find_dups_to_remove scored gs = none ↔
        ∃ g ∈ gs, ∃ x ∈ g, scored.lookup x = none)) ∧
    grouper_accepts "photo.tiff" = true ∧
    scorer_accepts "photo.tiff" = false := by
  refine ⟨?_, ?_, ?_⟩
  · intro scored gs
    exact find_dups_go_none_iff scored gs []
  · decide
  · decide

/-- Witness for C10: an unscored `photo.tiff` in a duplicate group
makes `find_dups_to_remove` raise. -/
theorem find_dups_requires_scored_members_witness :
    find_dups_to_remove [] [["photo.tiff"]] = none :=
  (find_dups_requires_scored_members.1 [] [["photo.tiff"]]).mpr
    ⟨["photo.tiff"], List.mem_cons_self _ _, "photo.tiff", List.mem_cons_self _ _, rfl⟩

/-- C4: on capture timestamps `[t, t+0.5, t+1.4, t+1.9]` (here `t = 0`)
with the 1.0-second window, the code's grouping walk compares each
image against the timestamp of the image that opened the current group
(`current_time` is only updated when a new group starts), so `img3` at
`t+1.4` falls outside the window anchored at `t` and a new group starts
there: the result is `[[img1, img2], [img3, img4]]`, not the chained
`[[img1, img2, img3], [img4]]` announced by the docstring ("grouped
together, even if the total time range exceeds one second") and the
specification. -/
theorem burst_grouping_fixed_anchor_eval :
    group_imgs_by_datetime
        [("img1", 0), ("img2", 0.5), ("img3", 1.4), ("img4", 1.9)]
      = [["img1", "img2"], ["img3", "img4"]] := by
  norm_num [group_imgs_by_datetime, List.insertionSort, List.orderedInsert,
    timeLe, burstWalk, abs_le]

/-- The grouping walk emits every image it is given exactly once, in
sorted order. -/
theorem burstWalk_flatten :
    ∀ (rest : List (String × ℚ)) (t : ℚ) (cur : List String),
      (burstWalk rest t cur).flatten = cur ++ rest.map Prod.fst := by
  intro rest
  induction rest with
  | nil => intro t cur; simp [burstWalk]
  | cons p rest ih =>
    intro t cur
    obtain ⟨f, dt⟩ := p
    by_cases h : |dt - t| ≤ 1
    · simp [burstWalk, h, ih]
    · simp [burstWalk, h, ih]

/-- The temporal-burst strategy partitions its input: the emitted
groups flatten to a permutation of the input images (each appears in
exactly one group). -/
theorem group_imgs_by_datetime_partition :
    ∀ imgs : List (String × ℚ),
      ((group_imgs_by_datetime imgs).flatten).Perm (imgs.map Prod.fst) := by
  intro imgs
  unfold group_imgs_by_datetime
  cases hs : List.insertionSort timeLe imgs with
  | nil =>
    have hperm : ([] : List (String × ℚ)).Perm imgs :=
      hs ▸ List.perm_insertionSort timeLe imgs
    have : imgs = [] := (hperm.symm).eq_nil
    subst this
    simp
  | cons first rest =>
    rw [burstWalk_flatten]
    have hperm : (first :: rest).Perm imgs :=
      hs ▸ List.perm_insertionSort timeLe imgs
    have hmap := hperm.map Prod.fst
    simpa using hmap

/-- All neighbour entries stored in an adjacency list. -/
def nbrPool (adj : List (String × List String)) : List String :=
  (adj.map Prod.snd).flatten

theorem lookup_mem_snd :
    ∀ (adj : List (String × List String)) (x : String) (ns : List String),
      adj.lookup x = some ns → ns ∈ adj.map Prod.snd := by
  intro adj
  induction adj with
  | nil => intro x ns h; simp [List.lookup] at h
  | cons p rest ih =>
    intro x ns h
    obtain ⟨k, ns'⟩ := p
    by_cases hxk : x == k
    · simp only [List.lookup, hxk] at h
      simp only [Option.some.injEq] at h
      subst h
      exact List.mem_cons_self _ _
    · rw [List.lookup, Bool.eq_false_iff.mpr hxk] at h
      exact List.mem_cons_of_mem _ (ih x ns h)

theorem nbrsOf_sub_pool :
    ∀ (adj : List (String × List String)) (x n : String),
      n ∈ nbrsOf adj x → n ∈ nbrPool adj := by
  intro adj x n hn
  unfold nbrsOf at hn
  cases hlk : adj.lookup x with
  | none => rw [hlk] at hn; exact absurd hn (List.not_mem_nil n)
  | some ns =>
    rw [hlk] at hn
    exact List.mem_flatten.mpr ⟨ns, lookup_mem_snd adj x ns hlk, hn⟩

/-- Invariant of the breadth-first loop: for any fuel, the final
visited list and group both extend their inputs by the same
duplicate-free block of previously-unvisited nodes, all of which were
either in the queue or stored as neighbours. -/
theorem bfsAux_spec (adj : List (String × List String)) :
    ∀ (fuel : Nat) (queue visited group : List String),
      ∃ d, bfsAux adj fuel queue visited group = (visited ++ d, group ++ d) ∧
        d.Nodup ∧ (∀ x ∈ d, x ∉ visited) ∧
        (∀ x ∈ d, x ∈ queue ∨ x ∈ nbrPool adj) := by
  intro fuel
  induction fuel with
  | zero =>
    intro queue visited group
    exact ⟨[], by simp [bfsAux], by simp, by simp, by simp⟩
  | succ fuel ih =>
    intro queue visited group
    cases queue with
    | nil => exact ⟨[], by simp [bfsAux], by simp, by simp, by simp⟩
    | cons curr rest =>
      by_cases hc : curr ∈ visited
      · obtain ⟨d, h1, h2, h3, h4⟩ := ih rest visited group
        refine ⟨d, ?_, h2, h3, fun x hx => ?_⟩
        · rw [bfsAux, if_pos hc]
          exact h1
        · rcases h4 x hx with h | h
          · exact Or.inl (List.mem_cons_of_mem curr h)
          · exact Or.inr h
      · obtain ⟨d, h1, h2, h3, h4⟩ :=
          ih (rest ++ (nbrsOf adj curr).filter (fun n => decide (n ∉ visited ++ [curr])))
            (visited ++ [curr]) (group ++ [curr])
        have hcd : curr ∉ d := fun hcd =>
          h3 curr hcd (List.mem_append.mpr (Or.inr (List.mem_singleton.mpr rfl)))
        refine ⟨curr :: d, ?_, List.nodup_cons.mpr ⟨hcd, h2⟩, ?_, ?_⟩
        · rw [bfsAux, if_neg hc, h1]
          simp
        · intro x hx
          rcases List.mem_cons.mp hx with h | h
          · exact h ▸ hc
          · exact fun hxv => h3 x h (List.mem_append.mpr (Or.inl hxv))
        · intro x hx
          rcases List.mem_cons.mp hx with h | h
          · exact Or.inl (h ▸ List.mem_cons_self curr rest)
          · rcases h4 x h with h' | h'
            · rcases List.mem_append.mp h' with h'' | h''
              · exact Or.inl (List.mem_cons_of_mem curr h'')
              · exact Or.inr (nbrsOf_sub_pool adj curr x (List.mem_of_mem_filter h''))
            · exact Or.inr h'

/-- Invariant of the outer loop of `group_duplicates`: the groups
accumulated flatten exactly to the nodes newly visited, each node is
visited at most once, every processed key ends up visited, and every
newly visited node came from the key list or the neighbour pool. -/
theorem group_dups_go_spec (adj : List (String × List String)) :
    ∀ (ks visited : List String) (groups : List (List String)),
      ∃ D, (group_dups_go adj ks visited groups).1 = visited ++ D ∧
        (group_dups_go adj ks visited groups).2.flatten = groups.flatten ++ D ∧
        D.Nodup ∧ (∀ x ∈ D, x ∉ visited) ∧
        (∀ x ∈ D, x ∈ ks ∨ x ∈ nbrPool adj) ∧
        (∀ k ∈ ks, k ∈ (group_dups_go adj ks visited groups).1) := by
  intro ks
  induction ks with
  | nil =>
    intro visited groups
    exact ⟨[], by simp [group_dups_go], by simp [group_dups_go], by simp,
      by simp, by simp, by simp⟩
  | cons k ks ih =>
    intro visited groups
    by_cases hc : k ∈ visited
    · have hstep : group_dups_go adj (k :: ks) visited groups
          = group_dups_go adj ks visited groups := by
        rw [group_dups_go, if_pos hc]
      obtain ⟨D, h1, h2, h3, h4, h5, h6⟩ := ih visited groups
      rw [hstep]
      refine ⟨D, h1, h2, h3, h4, ?_, ?_⟩
      · intro x hx
        rcases h5 x hx with h | h
        · exact Or.inl (List.mem_cons_of_mem k h)
        · exact Or.inr h
      · intro k' hk'
        rcases List.mem_cons.mp hk' with h | h
        · rw [h1]
          exact List.mem_append.mpr (Or.inl (h ▸ hc))
        · exact h6 k' h
    · -- a fresh breadth-first search starts at k and immediately visits it
      have hfirst : bfsAux adj (adjSize adj + 2) [k] visited []
          = bfsAux adj (adjSize adj + 1)
              (([] : List String) ++ (nbrsOf adj k).filter
                (fun n => decide (n ∉ visited ++ [k])))
              (visited ++ [k]) (([] : List String) ++ [k]) := by
        rw [bfsAux, if_neg hc]
      obtain ⟨d', hb1, hb2, hb3, hb4⟩ :=
        bfsAux_spec adj (adjSize adj + 1)
          (([] : List String) ++ (nbrsOf adj k).filter
            (fun n => decide (n ∉ visited ++ [k])))
          (visited ++ [k]) (([] : List String) ++ [k])
      have hr : bfsAux adj (adjSize adj + 2) [k] visited []
          = (visited ++ (k :: d'), k :: d') := by
        rw [hfirst, hb1]
        simp
      have hstep : group_dups_go adj (k :: ks) visited groups
          = group_dups_go adj ks (visited ++ (k :: d')) (groups ++ [k :: d']) := by
        rw [group_dups_go, if_neg hc, hr]
      obtain ⟨D', g1, g2, g3, g4, g5, g6⟩ := ih (visited ++ (k :: d')) (groups ++ [k :: d'])
      have hkd' : k ∉ d' := fun hkd =>
        hb3 k hkd (List.mem_append.mpr (Or.inr (List.mem_singleton.mpr rfl)))
      rw [hstep]
      refine ⟨(k :: d') ++ D', ?_, ?_, ?_, ?_, ?_, ?_⟩
      · rw [g1, List.append_assoc]
      · rw [g2]
        simp
      · refine List.nodup_append.mpr ⟨List.nodup_cons.mpr ⟨hkd', hb2⟩, g3, ?_⟩
        intro a ha haD
        exact g4 a haD (List.mem_append.mpr (Or.inr ha))
      · intro x hx
        rcases List.mem_append.mp hx with h | h
        · rcases List.mem_cons.mp h with h' | h'
          · exact h' ▸ hc
          · exact fun hxv => hb3 x h' (List.mem_append.mpr (Or.inl hxv))
        · exact fun hxv => g4 x h (List.mem_append.mpr (Or.inl hxv))
      · intro x hx
        rcases List.mem_append.mp hx with h | h
        · rcases List.mem_cons.mp h with h' | h'
          · exact Or.inl (h' ▸ List.mem_cons_self k ks)
          · rcases hb4 x h' with h'' | h''
            · rcases List.mem_append.mp h'' with h3' | h3'
              · exact absurd h3' (List.not_mem_nil x)
              · exact Or.inr (nbrsOf_sub_pool adj k x (List.mem_of_mem_filter h3'))
            · exact Or.inr h''
        · rcases g5 x h with h' | h'
          · exact Or.inl (List.mem_cons_of_mem k h')
          · exact Or.inr h'
      · intro k' hk'
        rcases List.mem_cons.mp hk' with h | h
        · rw [g1]
          refine List.mem_append.mpr (Or.inl (List.mem_append.mpr (Or.inr ?_)))
          exact h ▸ List.mem_cons_self k d'
        · exact g6 k' h

theorem addNbr_keys :
    ∀ (adj : List (String × List String)) (a b x : String),
      (x ∈ adjKeys (addNbr adj a b) ↔ x ∈ adjKeys adj ∨ x = a) := by
  intro adj
  induction adj with
  | nil => intro a b x; simp [addNbr, adjKeys]
  | cons p rest ih =>
    intro a b x
    obtain ⟨k, ns⟩ := p
    by_cases hk : k = a
    · subst hk
      rw [addNbr, if_pos rfl]
      simp only [adjKeys, List.map_cons, List.mem_cons]
      constructor
      · intro h
        rcases h with h | h
        · exact Or.inr h
        · exact Or.inl (Or.inr h)
      · intro h
        rcases h with (h | h) | h
        · exact Or.inl h
        · exact Or.inr h
        · exact Or.inl h
    · rw [addNbr, if_neg hk]
      simp only [adjKeys, List.map_cons, List.mem_cons] at ih ⊢
      rw [ih a b x]
      tauto

theorem addNbr_pool_sub :
    ∀ (adj : List (String × List String)) (a b x : String),
      x ∈ nbrPool (addNbr adj a b) → x ∈ nbrPool adj ∨ x = b := by
  intro adj
  induction adj with
  | nil =>
    intro a b x h
    simp [addNbr, nbrPool] at h
    exact Or.inr h
  | cons p rest ih =>
    intro a b x h
    obtain ⟨k, ns⟩ := p
    by_cases hk : k = a
    · subst hk
      rw [addNbr, if_pos rfl] at h
      simp only [nbrPool, List.map_cons, List.flatten_cons, List.mem_append] at h ⊢
      rcases h with h | h
      · by_cases hb : b ∈ ns
        · rw [if_pos hb] at h
          exact Or.inl (Or.inl h)
        · rw [if_neg hb] at h
          rcases List.mem_append.mp h with h' | h'
          · exact Or.inl (Or.inl h')
          · exact Or.inr (List.mem_singleton.mp h')
      · exact Or.inl (Or.inr h)
    · rw [addNbr, if_neg hk] at h
      simp only [nbrPool, List.map_cons, List.flatten_cons, List.mem_append] at h ⊢
      rcases h with h | h
      · exact Or.inl (Or.inl h)
      · rcases ih a b x h with h' | h'
        · exact Or.inl (Or.inr h')
        · exact Or.inr h'

/-- Invariant of the adjacency-building fold: neighbour entries are
always keys, and the keys are exactly the initial keys together with
the nodes of the processed pairs. -/
theorem buildAdj_inv :
    ∀ (pairs : List (String × String)) (adj : List (String × List String)),
      (∀ x ∈ nbrPool adj, x ∈ adjKeys adj) →
      (∀ x ∈ nbrPool (pairs.foldl
          (fun adj p => addNbr (addNbr adj p.1 p.2) p.2 p.1) adj),
        x ∈ adjKeys (pairs.foldl
          (fun adj p => addNbr (addNbr adj p.1 p.2) p.2 p.1) adj)) ∧
      (∀ x, x ∈ adjKeys (pairs.foldl
          (fun adj p => addNbr (addNbr adj p.1 p.2) p.2 p.1) adj) ↔
        x ∈ adjKeys adj ∨ ∃ p ∈ pairs, x = p.1 ∨ x = p.2) := by
  intro pairs
  induction pairs with
  | nil =>
    intro adj hpool
    simp only [List.foldl_nil]
    exact ⟨hpool, fun x => by simp⟩
  | cons p ps ih =>
    intro adj hpool
    obtain ⟨a, b⟩ := p
    simp only [List.foldl_cons]
    have hkeys2 : ∀ x, x ∈ adjKeys (addNbr (addNbr adj a b) b a) ↔
        x ∈ adjKeys adj ∨ x = a ∨ x = b := by
      intro x
      rw [addNbr_keys, addNbr_keys]
      tauto
    have hpool2 : ∀ x ∈ nbrPool (addNbr (addNbr adj a b) b a),
        x ∈ adjKeys (addNbr (addNbr adj a b) b a) := by
      intro x hx
      rcases addNbr_pool_sub (addNbr adj a b) b a x hx with h | h
      · rcases addNbr_pool_sub adj a b x h with h' | h'
        · exact (hkeys2 x).mpr (Or.inl (hpool x h'))
        · exact (hkeys2 x).mpr (Or.inr (Or.inr h'))
      · exact (hkeys2 x).mpr (Or.inr (Or.inl h))
    obtain ⟨ih1, ih2⟩ := ih (addNbr (addNbr adj a b) b a) hpool2
    refine ⟨ih1, fun x => ?_⟩
    rw [ih2 x, hkeys2 x]
    simp only [List.mem_cons]
    constructor
    · intro h
      rcases h with (h | h | h) | ⟨q, hq, hxq⟩
      · exact Or.inl h
      · exact Or.inr ⟨(a, b), Or.inl rfl, Or.inl h⟩
      · exact Or.inr ⟨(a, b), Or.inl rfl, Or.inr h⟩
      · exact Or.inr ⟨q, Or.inr hq, hxq⟩
    · intro h
      rcases h with h | ⟨q, hq, hxq⟩
      · exact Or.inl (Or.inl h)
      · rcases hq with hq | hq
        · subst hq
          exact Or.inl (Or.inr hxq)
        · exact Or.inr ⟨q, hq, hxq⟩

/-- C1 (amended): the groups emitted by `group_duplicates` are pairwise
disjoint and duplicate-free, and they cover exactly the images that
occur in at least one duplicate pair — an image matching no other image
is omitted entirely rather than emitted as a singleton group.  The
temporal-burst strategy, by contrast, does partition its whole input:
its groups flatten to a permutation of the input images. -/
theorem group_duplicates_partition_of_paired :
    (∀ pairs : List (String × String),
      ((group_duplicates pairs).2.flatten).Nodup ∧
      (∀ x, x ∈ (group_duplicates pairs).2.flatten ↔
        ∃ p ∈ pairs, x = p.1 ∨ x = p.2)) ∧
    (∀ imgs : List (String × ℚ),
      ((group_imgs_by_datetime imgs).flatten).Perm (imgs.map Prod.fst)) := by
  refine ⟨?_, group_imgs_by_datetime_partition⟩
  intro pairs
  obtain ⟨hpool, hkeys⟩ := buildAdj_inv pairs [] (by simp [nbrPool, adjKeys])
  obtain ⟨D, h1, h2, h3, h4, h5, h6⟩ :=
    group_dups_go_spec (buildAdj pairs) (adjKeys (buildAdj pairs)) [] []
  have hflat : (group_duplicates pairs).2.flatten = D := by
    unfold group_duplicates
    rw [h2]
    simp
  constructor
  · rw [hflat]
    exact h3
  · intro x
    rw [hflat]
    constructor
    · intro hx
      have hor : x ∈ adjKeys [] ∨ ∃ p ∈ pairs, x = p.1 ∨ x = p.2 := by
        rcases h5 x hx with h | h
        · exact (hkeys x).mp h
        · exact (hkeys x).mp (hpool x h)
      rcases hor with h | h
      · exact absurd h (by simp [adjKeys])
      · exact h
    · intro hx
      have hk : x ∈ adjKeys (buildAdj pairs) := (hkeys x).mpr (Or.inr hx)
      have := h6 x hk
      rw [h1] at this
      simpa using this

/-- C1 counterexample: from the single duplicate pair `("a", "b")`
found among the images `{a, b, c}`, `group_duplicates` emits only the
group `["a", "b"]` — the unmatched image `c` appears in no group, so
the emitted groups are not a partition of the input image set and no
singleton group is produced. -/
theorem group_duplicates_omits_unmatched :
    (group_duplicates [("a", "b")]).2 = [["a", "b"]] ∧
    "c" ∉ (group_duplicates [("a", "b")]).2.flatten := by
  constructor
  · decide
  · decide

/-- Witness for C1 (amended) at a concrete input: the paired image "a"
does appear in the emitted groups. -/
theorem group_duplicates_partition_of_paired_witness :
    "a" ∈ (group_duplicates [("a", "b")]).2.flatten :=
  ((group_duplicates_partition_of_paired.1 [("a", "b")]).2 "a").mpr
    ⟨("a", "b"), List.mem_cons_self _ _, Or.inl rfl⟩

theorem lookup_isSome_iff_mem :
    ∀ (m : List (String × Scores)) (x : String),
      ((m.lookup x).isSome ↔ x ∈ m.map Prod.fst) := by
  intro m
  induction m with
  | nil => intro x; simp [List.lookup]
  | cons p rest ih =>
    intro x
    obtain ⟨k, v⟩ := p
    by_cases hxk : x = k
    · subst hxk
      simp [List.lookup]
    · have hbeq : (x == k) = false := beq_eq_false_iff_ne.mpr hxk
      simp [List.lookup, hbeq, ih, hxk]

theorem eraseP_eq_filter_of_nodup :
    ∀ (m : List (String × Scores)), (m.map Prod.fst).Nodup → ∀ d : String,
      m.eraseP (fun p => p.1 == d) = m.filter (fun p => !(p.1 == d)) := by
  intro m
  induction m with
  | nil => intro _ d; simp
  | cons q rest ih =>
    intro hnd d
    have hnd2 := hnd
    rw [List.map_cons, List.nodup_cons] at hnd2
    have hnd' : q.1 ∉ rest.map Prod.fst ∧ (rest.map Prod.fst).Nodup := hnd2
    by_cases hqd : q.1 = d
    · rw [List.eraseP_cons, List.filter_cons]
      simp only [hqd, beq_self_eq_true, cond_true, Bool.not_true]
      symm
      apply List.filter_eq_self.mpr
      intro p hp
      have hne : p.1 ≠ d := by
        intro he
        exact hnd'.1 (hqd ▸ he ▸ List.mem_map.mpr ⟨p, hp, rfl⟩)
      simp [hne]
    · rw [List.eraseP_cons, List.filter_cons]
      have hbeq : (q.1 == d) = false := beq_eq_false_iff_ne.mpr hqd
      simp only [hbeq, cond_false, Bool.not_false, List.filter_cons_of_pos]
      rw [ih hnd'.2 d]
      simp

theorem del_scored_eq :
    ∀ (ds : List String) (m : List (String × Scores)),
      (m.map Prod.fst).Nodup → ds.Nodup → (∀ d ∈ ds, d ∈ m.map Prod.fst) →
      del_scored m ds = some (m.filter (fun p => decide (p.1 ∉ ds))) := by
  intro ds
  induction ds with
  | nil =>
    intro m _ _ _
    rw [del_scored]
    congr 1
    symm
    apply List.filter_eq_self.mpr
    intro p _
    simp
  | cons d ds ih =>
    intro m hm hds hmem
    have hdm : d ∈ m.map Prod.fst := hmem d (List.mem_cons_self d ds)
    have hlk : (m.lookup d).isSome := (lookup_isSome_iff_mem m d).mpr hdm
    rw [del_scored, if_pos hlk, eraseP_eq_filter_of_nodup m hm d]
    have hsubl : ((m.filter (fun p => !(p.1 == d))).map Prod.fst).Sublist (m.map Prod.fst) :=
      (List.filter_sublist m).map Prod.fst
    have hm' : ((m.filter (fun p => !(p.1 == d))).map Prod.fst).Nodup :=
      List.Nodup.sublist hsubl hm
    have hds' : ∀ d' ∈ ds, d' ∈ (m.filter (fun p => !(p.1 == d))).map Prod.fst := by
      intro d' hd'
      obtain ⟨q, hq, hq1⟩ := List.mem_map.mp (hmem d' (List.mem_cons_of_mem d hd'))
      have hne : d' ≠ d := fun he => (List.nodup_cons.mp hds).1 (he ▸ hd')
      refine List.mem_map.mpr ⟨q, List.mem_filter.mpr ⟨hq, ?_⟩, hq1⟩
      simp [hq1, hne]
    rw [ih _ hm' (List.nodup_cons.mp hds).2 hds']
    congr 1
    rw [List.filter_filter]
    apply List.filter_congr
    intro p _
    by_cases h1 : p.1 = d <;> by_cases h2 : p.1 ∈ ds <;> simp [h1, h2]

/-- Distinct filenames index distinct entries: in a map whose keys are
duplicate-free, two entries with the same key coincide. -/
theorem entries_unique (m : List (String × Scores))
    (hm : (m.map Prod.fst).Nodup) :
    ∀ q ∈ m, ∀ q' ∈ m, q.1 = q'.1 → q = q' := by
  have hpw : m.Pairwise (fun p q => p.1 ≠ q.1) := List.pairwise_map.mp hm
  have hsymm : Symmetric (fun p q : String × Scores => p.1 ≠ q.1) :=
    fun a b h he => h he.symm
  intro q hq q' hq' heq
  by_contra hne
  exact hpw.forall hsymm hq hq' hne heq

/-- C8 (amended): under well-formed inputs, the pipeline succeeds and
its `culled` audit list, the images silently dropped by the final trim,
and the returned kept list form a three-way partition of the scored
image universe: every scored image lands in exactly one of the three.
In particular `culled` and `kept` are disjoint, but they do not cover
the universe — the trim-dropped images are in neither (see the
counterexample). -/
theorem culled_kept_trichotomy (scored : List (String × Scores))
    (f : String → Scores) (gs : List (List String)) (cull_to : Nat)
    (hf : ∀ x ∈ gs.flatten, scored.lookup x = some (f x))
    (hnames : (scored.map Prod.fst).Nodup)
    (hflat : gs.flatten.Nodup)
    (hsent : "" ∉ gs.flatten)
    (hne : scored ≠ []) :
    ∃ c t k, gen_culled_list_fast scored gs cull_to = some (c, t, k) ∧
      (∀ x, (x ∈ scored.map Prod.fst ↔ x ∈ c ∨ x ∈ t ∨ x ∈ k)) ∧
      (∀ x ∈ c, x ∉ t ∧ x ∉ k) ∧
      (∀ x ∈ t, x ∉ k) := by
  have hfsome : (find_dups_to_remove scored gs).isSome :=
    find_dups_go_isSome scored gs []
      (fun g hg x hx => by rw [hf x (List.mem_flatten.mpr ⟨g, hg, hx⟩)]; rfl)
  obtain ⟨dups, hdups⟩ := Option.isSome_iff_exists.mp hfsome
  have hdupsub : ∀ y ∈ dups, y ∈ gs.flatten := by
    obtain ⟨-, t2⟩ := find_dups_go_sub scored gs [] dups hdups
    intro y hy
    rcases t2 y hy with h | h
    · exact absurd h (List.not_mem_nil y)
    · exact h
  have hdnd : dups.Nodup := (find_dups_go_nodup scored gs [] dups hdups
    List.nodup_nil hflat hsent (List.not_mem_nil "") (fun y _ => List.not_mem_nil y)).1
  have hdmem : ∀ d ∈ dups, d ∈ scored.map Prod.fst := fun d hd =>
    (lookup_isSome_iff_mem scored d).mp (by rw [hf d (hdupsub d hd)]; rfl)
  have hdel := del_scored_eq dups scored hnames hdnd hdmem
  set afterDups := scored.filter (fun p => decide (p.1 ∉ dups)) with hADdef
  set gateFail := afterDups.filter (fun p => (quality_gate_reason p.2).isSome) with hGFdef
  set afterGate := afterDups.filter (fun p => (quality_gate_reason p.2).isNone) with hAGdef
  set n := afterGate.length - cull_to with hndef
  set sorted := sort_by_weighted_score afterGate with hsorteddef
  have hmemAD : ∀ x, (x ∈ afterDups.map Prod.fst ↔ x ∈ scored.map Prod.fst ∧ x ∉ dups) := by
    intro x
    constructor
    · intro hx
      obtain ⟨q, hq, hq1⟩ := List.mem_map.mp hx
      obtain ⟨hqs, hqd⟩ := List.mem_filter.mp hq
      refine ⟨List.mem_map.mpr ⟨q, hqs, hq1⟩, ?_⟩
      rw [← hq1]
      exact of_decide_eq_true hqd
    · intro hx
      obtain ⟨q, hq, hq1⟩ := List.mem_map.mp hx.1
      exact List.mem_map.mpr
        ⟨q, List.mem_filter.mpr ⟨hq, decide_eq_true (hq1 ▸ hx.2)⟩, hq1⟩
  have hADnd : (afterDups.map Prod.fst).Nodup :=
    List.Nodup.sublist ((List.filter_sublist scored).map Prod.fst) hnames
  have hAGsub : (afterGate.map Prod.fst).Sublist (afterDups.map Prod.fst) :=
    (List.filter_sublist afterDups).map Prod.fst
  have hAGnd : (afterGate.map Prod.fst).Nodup := List.Nodup.sublist hAGsub hADnd
  have hsperm : sorted.Perm afterGate := List.perm_insertionSort wle afterGate
  have hspermmap : (sorted.map Prod.fst).Perm (afterGate.map Prod.fst) :=
    hsperm.map Prod.fst
  have hsnd : (sorted.map Prod.fst).Nodup := hspermmap.nodup_iff.mpr hAGnd
  have hsplit : (sorted.take n).map Prod.fst ++ (sorted.drop n).map Prod.fst
      = sorted.map Prod.fst := by
    rw [← List.map_append, List.take_append_drop]
  have hlen0 : ¬ (scored.length = 0) := fun h => hne (List.length_eq_zero.mp h)
  refine ⟨dups ++ gateFail.map Prod.fst, (sorted.take n).map Prod.fst,
    (sorted.drop n).map Prod.fst, ?_, ?_, ?_, ?_⟩
  · unfold gen_culled_list_fast
    simp only [hdups, hdel, trim_to_target, trim_removed]
    rw [if_neg hlen0]
  · intro x
    constructor
    · intro hx
      by_cases hxd : x ∈ dups
      · exact Or.inl (List.mem_append.mpr (Or.inl hxd))
      · have hxa : x ∈ afterDups.map Prod.fst := (hmemAD x).mpr ⟨hx, hxd⟩
        obtain ⟨q, hq, hq1⟩ := List.mem_map.mp hxa
        by_cases hgq : (quality_gate_reason q.2).isSome
        · exact Or.inl (List.mem_append.mpr (Or.inr
            (List.mem_map.mpr ⟨q, List.mem_filter.mpr ⟨hq, hgq⟩, hq1⟩)))
        · have hgn : (quality_gate_reason q.2).isNone = true := by
            cases hro : quality_gate_reason q.2 with
            | none => rfl
            | some r => rw [hro] at hgq; simp at hgq
          have hxs : x ∈ sorted.map Prod.fst :=
            hspermmap.mem_iff.mpr
              (List.mem_map.mpr ⟨q, List.mem_filter.mpr ⟨hq, hgn⟩, hq1⟩)
          rw [← hsplit] at hxs
          rcases List.mem_append.mp hxs with h | h
          · exact Or.inr (Or.inl h)
          · exact Or.inr (Or.inr h)
    · intro hx
      rcases hx with h | h | h
      · rcases List.mem_append.mp h with h' | h'
        · exact hdmem x h'
        · obtain ⟨q, hq, hq1⟩ := List.mem_map.mp h'
          exact List.mem_map.mpr
            ⟨q, (List.mem_filter.mp ((List.mem_filter.mp hq).1)).1, hq1⟩
      · have hxs : x ∈ sorted.map Prod.fst := by
          rw [← hsplit]
          exact List.mem_append.mpr (Or.inl h)
        obtain ⟨q, hq, hq1⟩ := List.mem_map.mp (hspermmap.mem_iff.mp hxs)
        exact List.mem_map.mpr
          ⟨q, (List.mem_filter.mp ((List.mem_filter.mp hq).1)).1, hq1⟩
      · have hxs : x ∈ sorted.map Prod.fst := by
          rw [← hsplit]
          exact List.mem_append.mpr (Or.inr h)
        obtain ⟨q, hq, hq1⟩ := List.mem_map.mp (hspermmap.mem_iff.mp hxs)
        exact List.mem_map.mpr
          ⟨q, (List.mem_filter.mp ((List.mem_filter.mp hq).1)).1, hq1⟩
  · intro x hxc
    have hxnotAG : x ∉ afterGate.map Prod.fst := by
      rcases List.mem_append.mp hxc with h' | h'
      · intro hxag
        exact ((hmemAD x).mp (hAGsub.subset hxag)).2 h'
      · intro hxag
        obtain ⟨q, hq, hq1⟩ := List.mem_map.mp h'
        obtain ⟨q', hq', hq1'⟩ := List.mem_map.mp hxag
        have hqf := List.mem_filter.mp hq
        have hq'f := List.mem_filter.mp hq'
        have heq : q = q' :=
          entries_unique afterDups hADnd q hqf.1 q' hq'f.1 (by rw [hq1, hq1'])
        have h1 := hqf.2
        have h2 := hq'f.2
        rw [heq] at h1
        cases hro : quality_gate_reason q'.2 with
        | none => rw [hro] at h1; simp at h1
        | some r => rw [hro] at h2; simp at h2
    constructor
    · intro hxt
      refine hxnotAG (hspermmap.mem_iff.mp ?_)
      rw [← hsplit]
      exact List.mem_append.mpr (Or.inl hxt)
    · intro hxk
      refine hxnotAG (hspermmap.mem_iff.mp ?_)
      rw [← hsplit]
      exact List.mem_append.mpr (Or.inr hxk)
  · intro x hxt hxk
    have hnd2 : ((sorted.take n).map Prod.fst ++ (sorted.drop n).map Prod.fst).Nodup := by
      rw [hsplit]
      exact hsnd
    exact (List.nodup_append.mp hnd2).2.2 hxt hxk

/-- C8 counterexample: two scored images (both passing the quality
gate, no duplicate groups) with `cull_to = 1` — the pipeline returns
`culled = []` and `kept = ["b"]`, and image "a", dropped by the final
trim, appears in neither list: culled and kept are not a two-way
partition of the scored universe. -/
theorem trim_dropped_in_neither_list :
    gen_culled_list_fast
        [("a", (⟨3, 3, 3, 3, 3, 3, 3⟩ : Scores)), ("b", (⟨3, 3, 3, 3, 3, 3, 3⟩ : Scores))]
        [] 1 = some ([], ["a"], ["b"]) ∧
    "a" ∉ ([] : List String) ∧ "a" ∉ (["b"] : List String) := by
  refine ⟨?_, by simp, by simp⟩
  norm_num [gen_culled_list_fast, find_dups_to_remove, find_dups_go, del_scored,
    quality_gate_reason, trim_to_target, trim_removed, sort_by_weighted_score,
    List.insertionSort, List.orderedInsert, wle, weightedScore]

/-- Witness for C8 (amended) at a concrete input: a single scored image
with no duplicate groups and `cull_to = 1`. -/
theorem culled_kept_trichotomy_witness :
    ∃ c t k, gen_culled_list_fast [("a", (⟨3, 3, 3, 3, 3, 3, 3⟩ : Scores))] [] 1
        = some (c, t, k) ∧
      (∀ x, (x ∈ [("a", (⟨3, 3, 3, 3, 3, 3, 3⟩ : Scores))].map Prod.fst ↔
        x ∈ c ∨ x ∈ t ∨ x ∈ k)) ∧
      (∀ x ∈ c, x ∉ t ∧ x ∉ k) ∧
      (∀ x ∈ t, x ∉ k) :=
  culled_kept_trichotomy [("a", (⟨3, 3, 3, 3, 3, 3, 3⟩ : Scores))]
    (fun _ => (⟨3, 3, 3, 3, 3, 3, 3⟩ : Scores)) [] 1
    (by simp) (by simp) (by simp) (by simp) (List.cons_ne_nil _ _)
